import Mathlib

/-
  Verification of the nodejs-mobile-react-native bridge layer.

  Shallow embedding of:
  - the message codec (src/src/MessageCodec.ts and its copy in
    install/resources/nodejs-modules/builtin_modules/rn-bridge/index.js):
    `serialize` builds the envelope object (event, payload) and encodes it as
    canonical JSON text; `deserialize` parses JSON text and validates the
    envelope shape.  JSON texts are modelled by an executable renderer and an
    executable parser over `List Char`.  Restrictions of the model, none of
    which any claim depends on: JSON numbers are integers (no floats), the
    parser accepts only canonical texts (no whitespace between tokens), and
    surrogate escape sequences are out of scope.
  - the SystemEventLock countdown barrier and the SystemChannel pause handling
    (rn-bridge/index.js).
  - the EventChannel listener-refcount lifecycle and the incoming dispatch
    paths on both sides (RNNodeJsMobileModule.ts and rn-bridge/index.js),
    with the setImmediate deferral modelled as an explicit task queue.
  - the JNI thread-attachment pool (android/src/main/cpp/native-lib.cpp), at
    two granularities: one step per atomic operation (interleaved), and one
    step per whole `get_jni_env` call (serialized).
  - the host lifecycle gating (Kotlin module): the readiness flag and the
    background/foreground handlers, as a trace machine.
-/

/-! ## JSON values -/

/-- A JSON value as produced by `JSON.parse`.  Numbers are modelled as
integers; object members keep their textual order (duplicate keys allowed,
lookup takes the last occurrence, as `JSON.parse` does). -/
inductive Json where
  | null
  | bool (b : Bool)
  | num (n : Int)
  | str (s : String)
  | arr (elements : List Json)
  | obj (members : List (String × Json))

/-! ## Rendering (the model of `JSON.stringify` on `Json` values) -/

/-- The character for the decimal digit `n < 10`. -/
def digCh (n : Nat) : Char := Char.ofNat (48 + n)

/-- The lowercase hex digit character for `n < 16` (as `JSON.stringify` emits
in control-character escapes). -/
def hexCh (n : Nat) : Char :=
  if n < 10 then Char.ofNat (48 + n) else Char.ofNat (87 + n)

/-- Decimal digit characters of a natural number, most significant first. -/
def natOut (n : Nat) : List Char :=
  if n < 10 then [digCh n] else natOut (n / 10) ++ [digCh (n % 10)]
termination_by n
decreasing_by omega

/-- Decimal rendering of an integer: optional minus sign, then digits. -/
def intOut (n : Int) : List Char :=
  if n < 0 then '-' :: natOut n.natAbs else natOut n.natAbs

/-- JSON escaping of one string character, as `JSON.stringify` does it:
quote and backslash get two-character escapes, the five named control
characters get their short forms, all other control characters get
lowercase `u00xx` escapes, everything else is passed through. -/
def escChar (c : Char) : List Char :=
  if c = '"' then ['\\', '"']
  else if c = '\\' then ['\\', '\\']
  else if c = '\x08' then ['\\', 'b']
  else if c = '\x09' then ['\\', 't']
  else if c = '\x0a' then ['\\', 'n']
  else if c = '\x0c' then ['\\', 'f']
  else if c = '\x0d' then ['\\', 'r']
  else if c.toNat < 32 then
    ['\\', 'u', '0', '0', hexCh (c.toNat / 16), hexCh (c.toNat % 16)]
  else [c]

/-- JSON escaping of a whole string body (no surrounding quotes). -/
def escBody : List Char → List Char
  | [] => []
  | c :: cs => escChar c ++ escBody cs

mutual

/-- Canonical JSON text of a value, as a character list; the exact output of
`JSON.stringify` on the corresponding JavaScript value. -/
def jout : Json → List Char
  | .num n => intOut n
  | .str s => '"' :: (escBody s.data ++ ['"'])
  | .arr [] => ['[', ']']
  | .arr (x :: xs) => '[' :: arrOut x xs
  | .obj [] => ['\x7b', '\x7d']
  | .obj (m :: ms) => '\x7b' :: objOut m ms
  | .null => ['n', 'u', 'l', 'l']
  | .bool b => if b then ['t', 'r', 'u', 'e'] else ['f', 'a', 'l', 's', 'e']
termination_by j => sizeOf j

/-- Comma-separated elements of a non-empty array, with the closing bracket. -/
def arrOut : Json → List Json → List Char
  | x, [] => jout x ++ [']']
  | x, y :: ys => jout x ++ (',' :: arrOut y ys)
termination_by x xs => sizeOf x + sizeOf xs

/-- Comma-separated members of a non-empty object, with the closing brace. -/
def objOut : String × Json → List (String × Json) → List Char
  | (k, v), [] => '"' :: (escBody k.data ++ ('"' :: (':' :: (jout v ++ ['\x7d']))))
  | (k, v), m :: ms =>
    '"' :: (escBody k.data ++ ('"' :: (':' :: (jout v ++ (',' :: objOut m ms)))))
termination_by m ms => sizeOf m + sizeOf ms

end

/-! ## Parsing (the model of `JSON.parse`) -/

/-- Hex digit test, both cases accepted (as `JSON.parse` does). -/
def isHex (c : Char) : Bool :=
  c.isDigit || ('a' ≤ c && c ≤ 'f') || ('A' ≤ c && c ≤ 'F')

/-- Value of a hex digit character. -/
def hexv (c : Char) : Nat :=
  if 97 ≤ c.toNat then c.toNat - 87
  else if 65 ≤ c.toNat then c.toNat - 55
  else c.toNat - 48

/-- Inverse of the two-character escapes. -/
def unesc (e : Char) : Option Char :=
  if e = '"' then some '"'
  else if e = '\\' then some '\\'
  else if e = '/' then some '/'
  else if e = 'b' then some '\x08'
  else if e = 'f' then some '\x0c'
  else if e = 'n' then some '\x0a'
  else if e = 'r' then some '\x0d'
  else if e = 't' then some '\x09'
  else none

mutual

/-- Parse a string body after the opening quote, consuming the closing
quote; undoes the escaping. -/
def parseStrBody : List Char → Option (List Char × List Char)
  | [] => none
  | c :: cs =>
    if c = '"' then some ([], cs)
    else if c = '\\' then parseEsc cs
    else
      match parseStrBody cs with
      | some (body, r) => some (c :: body, r)
      | none => none
termination_by cs => cs.length

/-- Parse what follows a backslash. -/
def parseEsc : List Char → Option (List Char × List Char)
  | [] => none
  | e :: cs1 =>
    if e = 'u' then parseUEsc cs1
    else
      match unesc e with
      | some d =>
        match parseStrBody cs1 with
        | some (body, r) => some (d :: body, r)
        | none => none
      | none => none
termination_by cs => cs.length

/-- Parse the four hex digits of a unicode escape. -/
def parseUEsc : List Char → Option (List Char × List Char)
  | h1 :: h2 :: h3 :: h4 :: cs2 =>
    if isHex h1 && isHex h2 && isHex h3 && isHex h4 then
      match parseStrBody cs2 with
      | some (body, r) =>
        some (Char.ofNat (hexv h1 * 4096 + hexv h2 * 256 + hexv h3 * 16 + hexv h4) :: body, r)
      | none => none
    else none
  | _ => none
termination_by cs => cs.length

end

/-- Value of a digit run. -/
def digitsVal (ds : List Char) : Nat :=
  ds.foldl (fun a c => a * 10 + (c.toNat - 48)) 0

/-- Parse a non-empty digit run. -/
def parseNatPart (cs : List Char) : Option (Nat × List Char) :=
  let ds := cs.takeWhile Char.isDigit
  if ds.isEmpty then none
  else some (digitsVal ds, cs.dropWhile Char.isDigit)

/-- Parse an integer JSON number: optional minus sign, then digits. -/
def parseNum : List Char → Option (Int × List Char)
  | [] => none
  | c :: cs =>
    if c = '-' then
      match parseNatPart cs with
      | some (m, r) => some (-(m : Int), r)
      | none => none
    else
      match parseNatPart (c :: cs) with
      | some (m, r) => some ((m : Int), r)
      | none => none

mutual

/-- Parse one JSON value.  Structural on `fuel`; callers supply at least the
input length plus one, which the round-trip lemmas show is enough. -/
def parseVal : Nat → List Char → Option (Json × List Char)
  | 0, _ => none
  | _ + 1, [] => none
  | fuel + 1, c :: cs =>
    if c = 'n' then
      match cs with
      | 'u' :: 'l' :: 'l' :: r => some (.null, r)
      | _ => none
    else if c = 't' then
      match cs with
      | 'r' :: 'u' :: 'e' :: r => some (.bool true, r)
      | _ => none
    else if c = 'f' then
      match cs with
      | 'a' :: 'l' :: 's' :: 'e' :: r => some (.bool false, r)
      | _ => none
    else if c = '"' then
      match parseStrBody cs with
      | some (body, r) => some (.str (String.mk body), r)
      | none => none
    else if c = '[' then
      match cs with
      | ']' :: r => some (.arr [], r)
      | _ =>
        match parseElems fuel cs with
        | some (vs, r) => some (.arr vs, r)
        | none => none
    else if c = '\x7b' then
      match cs with
      | '\x7d' :: r => some (.obj [], r)
      | _ =>
        match parseMems fuel cs with
        | some (ms, r) => some (.obj ms, r)
        | none => none
    else
      match parseNum (c :: cs) with
      | some (n, r) => some (.num n, r)
      | none => none

/-- Parse one or more comma-separated array elements and the closing bracket. -/
def parseElems : Nat → List Char → Option (List Json × List Char)
  | 0, _ => none
  | fuel + 1, cs =>
    match parseVal fuel cs with
    | none => none
    | some (v, r1) =>
      match r1 with
      | ',' :: r2 =>
        match parseElems fuel r2 with
        | some (vs, r3) => some (v :: vs, r3)
        | none => none
      | ']' :: r2 => some ([v], r2)
      | _ => none

/-- Parse one or more comma-separated object members and the closing brace. -/
def parseMems : Nat → List Char → Option (List (String × Json) × List Char)
  | 0, _ => none
  | fuel + 1, cs =>
    match cs with
    | '"' :: cs1 =>
      match parseStrBody cs1 with
      | none => none
      | some (key, r1) =>
        match r1 with
        | ':' :: r2 =>
          match parseVal fuel r2 with
          | none => none
          | some (v, r3) =>
            match r3 with
            | ',' :: r4 =>
              match parseMems fuel r4 with
              | some (ms, r5) => some ((String.mk key, v) :: ms, r5)
              | none => none
            | '\x7d' :: r4 => some ([(String.mk key, v)], r4)
            | _ => none
        | _ => none
    | _ => none

end

/-- Parse a complete JSON document: one value, no trailing characters. -/
def jparse (text : String) : Option Json :=
  match parseVal (text.data.length + 1) text.data with
  | some (v, []) => some v
  | _ => none

/-! ## The message codec (serialize / deserialize from MessageCodec.ts) -/

/-- The failure cases of `MessageCodecError`, one per distinct message the
source can raise.  `notAString` cannot arise in this typed embedding (its
guard, `typeof message !== "string"`, is enforced by the input type). -/
inductive CodecFailure where
  | emptyEventName
  | serializationFailure
  | notAString
  | parseFailure
  | notAnObject
  | missingFields
  | eventNotString
  | payloadNotArray
deriving DecidableEq

/-- The decoded envelope: `interface DeserializedMessage`. -/
structure DeserializedMessage where
  event : String
  payload : List Json

/-- JavaScript falsiness of a parsed JSON value (the `!deserializedMessage`
half of the object check): null, false, 0 and the empty string are falsy. -/
def jsFalsy : Json → Bool
  | .null => true
  | .bool b => !b
  | .num n => n = 0
  | .str s => s = ""
  | .arr _ => false
  | .obj _ => false

/-- Whether `typeof` of a parsed JSON value is "object": true for null,
arrays and objects (the JavaScript quirk the source relies on). -/
def jsTypeofObject : Json → Bool
  | .null => true
  | .arr _ => true
  | .obj _ => true
  | _ => false

/-- Membership of a key in a parsed object (the JavaScript `in` operator on
a `JSON.parse` result). -/
def hasKey (members : List (String × Json)) (k : String) : Bool :=
  members.any (fun m => m.1 == k)

/-- Property lookup on a parsed object.  A duplicate key takes the last
occurrence, as `JSON.parse` builds the object. -/
def lookupLast (members : List (String × Json)) (k : String) : Option Json :=
  members.foldl (fun acc m => if m.1 == k then some m.2 else acc) none

/-- The function serialize from MessageCodec.ts: reject an empty event name, then build
the envelope object and encode it.  `JSON.stringify` cannot fail here
(`Json` values are finite trees, so the cyclic-structure failure wrapped as
`serializationFailure` is unreachable). -/
def serialize (event : String) (payload : List Json) : Except CodecFailure String :=
  if event = "" then .error .emptyEventName
  else .ok (String.mk (jout (.obj [("event", .str event), ("payload", .arr payload)])))

/-- The function deserialize from MessageCodec.ts: parse, then validate the envelope
shape exactly as the source does: the falsy/typeof object check, the key
presence check, then the per-field type checks. -/
def deserialize (text : String) : Except CodecFailure DeserializedMessage :=
  match jparse text with
  | none => .error .parseFailure
  | some v =>
    if jsFalsy v || !jsTypeofObject v then .error .notAnObject
    else
      match v with
      | .obj members =>
        if !hasKey members "event" || !hasKey members "payload" then .error .missingFields
        else
          match lookupLast members "event" with
          | some (.str e) =>
            match lookupLast members "payload" with
            | some (.arr p) => .ok ⟨e, p⟩
            | _ => .error .payloadNotArray
          | _ => .error .eventNotString
      | .arr _ => .error .missingFields
      | _ => .error .notAnObject

/-! ## SystemEventLock (rn-bridge/index.js): the pause barrier -/

/-- The mutable fields of a `SystemEventLock`. -/
structure SystemEventLock where
  locksAcquired : Int
  hasReleased : Bool
deriving DecidableEq

/-- A lock together with the messages its callback has sent so far (the
callback passed at construction sends one fixed message on the bridge, so
callback invocations are modelled by appending that message). -/
structure LockRun where
  lock : SystemEventLock
  sent : List String
deriving DecidableEq

/-- The method checkRelease: if no locks remain, mark released and invoke the
callback.  The flag is set before the callback runs, as in the source. -/
def checkRelease (msg : String) (st : LockRun) : LockRun :=
  if st.lock.locksAcquired ≤ 0 then ⟨⟨st.lock.locksAcquired, true⟩, st.sent ++ [msg]⟩
  else st

/-- The `SystemEventLock` constructor: store the starting lock count and run
the initial `_checkRelease` (so a zero count fires synchronously). -/
def lockNew (msg : String) (startingLocks : Int) : LockRun :=
  checkRelease msg ⟨⟨startingLocks, false⟩, []⟩

/-- The method release: a no-op once released; otherwise decrement and re-check. -/
def lockRelease (msg : String) (st : LockRun) : LockRun :=
  if st.lock.hasReleased then st
  else checkRelease msg ⟨⟨st.lock.locksAcquired - 1, st.lock.hasReleased⟩, st.sent⟩

/-- Perform `k` successive release calls. -/
def lockReleaseN (msg : String) : Nat → LockRun → LockRun
  | 0, st => st
  | k + 1, st => lockReleaseN msg k (lockRelease msg st)

/-! ## SystemChannel.emitWrapper (rn-bridge/index.js): pause handling -/

/-- JavaScript `String.prototype.split` with a one-character separator. -/
def splitOnChar (sep : Char) : List Char → List (List Char)
  | [] => [[]]
  | c :: cs =>
    if c = sep then [] :: splitOnChar sep cs
    else
      match splitOnChar sep cs with
      | [] => [[c]]
      | p :: ps => (c :: p) :: ps

/-- JavaScript split with a one-character separator, on `String`. -/
def jsSplit (sep : Char) (s : String) : List String :=
  (splitOnChar sep s.data).map String.mk

/-- The release message computed in `SystemChannel.emitWrapper`: split the
incoming text on the bar; with at least two segments, append the second one
to the fixed prefix text. -/
def releaseMessageFor (t : String) : String :=
  let eventArguments := jsSplit '|' t
  if 2 ≤ eventArguments.length then
    "release-pause-event" ++ "|" ++ eventArguments.getD 1 ""
  else "release-pause-event"

/-- The outcome of `SystemChannel.emitWrapper` on an incoming system text:
the constructed lock (for the pause path), the messages already sent back at
construction time, and the event names emitted to local listeners. -/
structure SystemEmitOutcome where
  lock : Option LockRun
  sentAtConstruction : List String
  localEvents : List String

/-- The method SystemChannel.emitWrapper: texts starting with "pause" build a
`SystemEventLock` over the release message, with one lock per current pause
listener, and emit the event "pause" locally; other texts are emitted
locally under their own name with no lock. -/
def systemChannelEmit (t : String) (pauseListenerCount : Nat) : SystemEmitOutcome :=
  if List.isPrefixOf "pause".data t.data then
    let run := lockNew (releaseMessageFor t) (Int.ofNat pauseListenerCount)
    ⟨some run, run.sent, ["pause"]⟩
  else ⟨none, [], [t]⟩

/-! ## Incoming dispatch on both sides, with the scheduler made explicit -/

/-- The state of one receiving side's event loop: what has been emitted to
local listeners during the current synchronous task, what is queued for the
next turn, and what has been logged. -/
structure LoopState where
  emittedNow : List (String × List Json)
  pending : List (String × List Json)
  warnings : List String

/-- An empty loop state. -/
def emptyLoop : LoopState := ⟨[], [], []⟩

/-- The setImmediate primitive: queue an emission for the next turn of the loop. -/
def setImmediateTask (p : String × List Json) (s : LoopState) : LoopState :=
  ⟨s.emittedNow, s.pending ++ [p], s.warnings⟩

/-- A synchronous local emission. -/
def emitLocal (p : String × List Json) (s : LoopState) : LoopState :=
  ⟨s.emittedNow ++ [p], s.pending, s.warnings⟩

/-- End of turn: the queued tasks run in FIFO order. -/
def runPending (s : LoopState) : LoopState :=
  s.pending.foldl (fun acc p => emitLocal p acc) ⟨s.emittedNow, [], s.warnings⟩

/-- Node-side `EventChannel.processData` (rn-bridge/index.js): deserialize,
then `emitWrapper`, which defers the local emission via `setImmediate`.
There is no try/catch here (nor in `bridgeListener`, its only caller), so a
decode failure propagates to the caller, modelled by `Except.error`. -/
def nodeProcessData (s : LoopState) (data : String) : Except CodecFailure LoopState :=
  match deserialize data with
  | .ok envelope => .ok (setImmediateTask (envelope.event, envelope.payload) s)
  | .error e => .error e

/-- Node-side processing of a sequence of incoming messages. -/
def nodeProcessAll (s : LoopState) : List String → Except CodecFailure LoopState
  | [] => .ok s
  | d :: ds =>
    match nodeProcessData s d with
    | .ok s1 => nodeProcessAll s1 ds
    | .error e => .error e

/-- The decoded emission a message would queue, if it decodes. -/
def decodedPair (data : String) : Option (String × List Json) :=
  match deserialize data with
  | .ok envelope => some (envelope.event, envelope.payload)
  | .error _ => none

/-- React-Native-side `EventChannel.#processData` (RNNodeJsMobileModule.ts):
deserialize inside a try/catch; on success the envelope is emitted to local
listeners synchronously (expo's `EventEmitter.emit`), on failure a warning
is logged and the message is dropped.  Always returns normally. -/
def tsProcessData (s : LoopState) (data : String) : LoopState :=
  match deserialize data with
  | .ok envelope => emitLocal (envelope.event, envelope.payload) s
  | .error _ => ⟨s.emittedNow, s.pending, s.warnings ++ ["Failed to process Node.js message"]⟩

/-! ## EventChannel listener lifecycle (RNNodeJsMobileModule.ts) -/

/-- The listener-refcount state of the TypeScript `EventChannel`, plus
counters for how many times the native subscription has been started and
stopped. -/
structure EventChannelState where
  listenerCount : Int
  subscriptionActive : Bool
  activations : Nat
  deactivations : Nat
deriving DecidableEq

/-- The method startNativeSubscription: a no-op if a subscription exists. -/
def startNativeSubscription (s : EventChannelState) : EventChannelState :=
  if s.subscriptionActive then s
  else ⟨s.listenerCount, true, s.activations + 1, s.deactivations⟩

/-- The method stopNativeSubscription: a no-op if no subscription exists. -/
def stopNativeSubscription (s : EventChannelState) : EventChannelState :=
  if s.subscriptionActive then ⟨s.listenerCount, false, s.activations, s.deactivations + 1⟩
  else s

/-- The method addListener: increment the count; on reaching 1, start the native
subscription. -/
def addListener (s : EventChannelState) : EventChannelState :=
  let s1 : EventChannelState :=
    ⟨s.listenerCount + 1, s.subscriptionActive, s.activations, s.deactivations⟩
  if s1.listenerCount = 1 then startNativeSubscription s1 else s1

/-- A returned subscription's `remove`: decrement the count; on reaching 0,
stop the native subscription. -/
def removeListener (s : EventChannelState) : EventChannelState :=
  let s1 : EventChannelState :=
    ⟨s.listenerCount - 1, s.subscriptionActive, s.activations, s.deactivations⟩
  if s1.listenerCount = 0 then stopNativeSubscription s1 else s1

/-- A fresh channel: no listeners, no subscription. -/
def freshChannel : EventChannelState := ⟨0, false, 0, 0⟩

/-! ## The JNI attachment pool (native-lib.cpp, get_jni_env) -/

/-- Where one not-yet-attached thread stands inside `get_jni_env`:
before the capacity check; past the check (about to attach); attached,
carrying the count it observed from `fetch_add`, about to update the peak;
finished with a cached env; or refused. -/
inductive ThreadPhase where
  | beforeCheck
  | passedCheck
  | attached (observed : Nat)
  | finished
  | refused
deriving DecidableEq

/-- The shared pool counters plus each thread's phase. -/
structure PoolState where
  count : Nat
  peak : Nat
  threads : List ThreadPhase
deriving DecidableEq

/-- One atomic step of thread `i` in `get_jni_env`.  The capacity check is
one atomic load; the attach plus `fetch_add` is the next step; the peak
CAS-retry loop is linearized as one max update.  A thread that is finished
or refused, or an out-of-range index, leaves the state unchanged. -/
def poolStep (limit : Nat) (s : PoolState) (i : Nat) : PoolState :=
  match s.threads.get? i with
  | some .beforeCheck =>
    if limit ≤ s.count then ⟨s.count, s.peak, s.threads.set i .refused⟩
    else ⟨s.count, s.peak, s.threads.set i .passedCheck⟩
  | some .passedCheck =>
    ⟨s.count + 1, s.peak, s.threads.set i (.attached (s.count + 1))⟩
  | some (.attached c) =>
    ⟨s.count, max s.peak c, s.threads.set i .finished⟩
  | _ => s

/-- Run a schedule: a list of thread indices, each taking its next step. -/
def poolRun (limit : Nat) (sched : List Nat) (s : PoolState) : PoolState :=
  sched.foldl (poolStep limit) s

/-- A pool of `n` fresh, not-yet-attached threads and zeroed counters. -/
def poolInit (n : Nat) : PoolState := ⟨0, 0, List.replicate n .beforeCheck⟩

/-- How many threads are in a given phase. -/
def phaseCount (s : PoolState) (p : ThreadPhase) : Nat :=
  s.threads.countP (fun t => t = p)

/-- One whole `get_jni_env` call for a fresh thread, serialized (no other
thread runs between its steps): the capacity check, then attach with
`fetch_add` and the peak update.  Returns whether the call succeeded, with
the updated counters. -/
def acquireSeq (limit : Nat) (s : Nat × Nat) : Bool × (Nat × Nat) :=
  if limit ≤ s.1 then (false, s)
  else (true, (s.1 + 1, max s.2 (s.1 + 1)))

/-- Run `n` serialized get_jni_env calls from distinct fresh threads,
returning (successes, refusals, counters). -/
def acquireSeqRun (limit : Nat) : Nat → (Nat × Nat × (Nat × Nat))
  | 0 => (0, 0, (0, 0))
  | n + 1 =>
    let prev := acquireSeqRun limit n
    let step := acquireSeq limit prev.2.2
    if step.1 then (prev.1 + 1, prev.2.1, step.2)
    else (prev.1, prev.2.1 + 1, step.2)

/-! ## Host-side readiness gating (the Kotlin module) -/

/-- Events observed by the host module: a system-channel message arriving
from the embedded side, or an activity lifecycle transition. -/
inductive HostEvent where
  | recvSystem (msg : String)
  | enterBackground
  | enterForeground
deriving DecidableEq

/-- The host-side state: the `nodeIsReadyForAppEvents` flag, and the texts
the host has sent on the system channel. -/
structure HostState where
  nodeIsReadyForAppEvents : Bool
  sentToNode : List String
deriving DecidableEq

/-- One host step: `handleAppChannelMessage` sets the readiness flag on the
exact text "ready-for-app-events"; the background/foreground handlers send
"pause"/"resume" only when the flag is set. -/
def hostStep (s : HostState) : HostEvent → HostState
  | .recvSystem msg =>
    if msg = "ready-for-app-events" then ⟨true, s.sentToNode⟩ else s
  | .enterBackground =>
    if s.nodeIsReadyForAppEvents then ⟨s.nodeIsReadyForAppEvents, s.sentToNode ++ ["pause"]⟩
    else s
  | .enterForeground =>
    if s.nodeIsReadyForAppEvents then ⟨s.nodeIsReadyForAppEvents, s.sentToNode ++ ["resume"]⟩
    else s

/-- Run a trace of host events from the initial state (flag down, nothing
sent). -/
def hostRun (events : List HostEvent) : HostState :=
  events.foldl hostStep ⟨false, []⟩

/-! ## Auxiliary predicates used by the statements -/

/-- A remainder that cannot extend a rendered number: empty, or starting
with a non-digit.  Every continuation a rendered envelope produces (a comma,
a closing bracket or brace, end of input) qualifies. -/
def numOk : List Char → Prop
  | [] => True
  | c :: _ => c.isDigit = false

/-- The `EventChannel` consistency invariant: a native subscription is held
exactly while at least one listener is registered. -/
def chanInv (s : EventChannelState) : Prop :=
  s.subscriptionActive = decide (1 ≤ s.listenerCount)

/-! ## Lemmas: decimal digits -/

theorem digCh_spec : ∀ n, n < 10 → (digCh n).toNat = 48 + n ∧ (digCh n).isDigit = true := by
  decide

theorem natOut_eq (n : Nat) :
    natOut n = if n < 10 then [digCh n] else natOut (n / 10) ++ [digCh (n % 10)] := by
  rw [natOut]

theorem natOut_ne_nil (n : Nat) : natOut n ≠ [] := by
  rw [natOut_eq]
  by_cases h : n < 10 <;> simp [h]

theorem natOut_digits (n : Nat) : ∀ c ∈ natOut n, c.isDigit = true := by
  induction n using Nat.strongRecOn with
  | _ n ih =>
    rw [natOut_eq]
    by_cases h : n < 10
    · simp only [if_pos h, List.mem_singleton]
      rintro c rfl
      exact (digCh_spec n h).2
    · simp only [if_neg h, List.mem_append, List.mem_singleton]
      rintro c (hc | rfl)
      · exact ih (n / 10) (by omega) c hc
      · exact (digCh_spec (n % 10) (by omega)).2

theorem digitsVal_go (n : Nat) :
    ∀ a, (natOut n).foldl (fun x c => x * 10 + (c.toNat - 48)) a
      = a * 10 ^ (natOut n).length + n := by
  induction n using Nat.strongRecOn with
  | _ n ih =>
    intro a
    rw [natOut_eq]
    by_cases h : n < 10
    · simp only [if_pos h, List.foldl_cons, List.foldl_nil, List.length_singleton]
      rw [(digCh_spec n h).1]
      omega
    · simp only [if_neg h, List.foldl_append, List.foldl_cons, List.foldl_nil,
        List.length_append, List.length_singleton]
      rw [ih (n / 10) (by omega) a, (digCh_spec (n % 10) (by omega)).1]
      rw [pow_succ]
      have hassoc : a * (10 ^ (natOut (n / 10)).length * 10)
          = a * 10 ^ (natOut (n / 10)).length * 10 := by ring
      rw [hassoc]
      omega

theorem digitsVal_natOut (n : Nat) : digitsVal (natOut n) = n := by
  have := digitsVal_go n 0
  simpa [digitsVal] using this

/-! ## Lemmas: number parsing -/

theorem takeWhile_digits_append (rest : List Char) (hrest : numOk rest) (n : Nat) :
    (natOut n ++ rest).takeWhile Char.isDigit = natOut n := by
  rw [List.takeWhile_append_of_pos (natOut_digits n)]
  cases rest with
  | nil => simp
  | cons c cs =>
    simp only [numOk] at hrest
    simp [List.takeWhile_cons, hrest]

theorem dropWhile_digits_append (rest : List Char) (hrest : numOk rest) (n : Nat) :
    (natOut n ++ rest).dropWhile Char.isDigit = rest := by
  have hsplit := List.takeWhile_append_dropWhile (p := Char.isDigit) (l := natOut n ++ rest)
  rw [takeWhile_digits_append rest hrest] at hsplit
  exact List.append_cancel_left hsplit

theorem parseNatPart_natOut (n : Nat) (rest : List Char) (hrest : numOk rest) :
    parseNatPart (natOut n ++ rest) = some (n, rest) := by
  unfold parseNatPart
  rw [takeWhile_digits_append rest hrest, dropWhile_digits_append rest hrest]
  simp [natOut_ne_nil n, List.isEmpty_iff, digitsVal_natOut]

theorem digit_ne_minus {c : Char} (h : c.isDigit = true) : ¬c = '-' := by
  rintro rfl
  exact absurd h (by decide)

theorem parseNum_intOut (n : Int) (rest : List Char) (hrest : numOk rest) :
    parseNum (intOut n ++ rest) = some (n, rest) := by
  by_cases hn : n < 0
  · have harg : intOut n ++ rest = '-' :: (natOut n.natAbs ++ rest) := by
      simp [intOut, hn]
    rw [harg]
    have hpn := parseNatPart_natOut n.natAbs rest hrest
    simp [parseNum, hpn]
    rw [abs_of_nonpos (show n ≤ 0 by omega)]
    ring
  · obtain ⟨c, cs, hcons⟩ : ∃ c cs, natOut n.natAbs = c :: cs := by
      cases h : natOut n.natAbs with
      | nil => exact absurd h (natOut_ne_nil _)
      | cons c cs => exact ⟨c, cs, rfl⟩
    have hdig : c.isDigit = true := natOut_digits n.natAbs c (by rw [hcons]; simp)
    have harg : intOut n ++ rest = c :: (cs ++ rest) := by
      simp [intOut, hn, hcons]
    rw [harg]
    have hpn : parseNatPart (c :: (cs ++ rest)) = some (n.natAbs, rest) := by
      have := parseNatPart_natOut n.natAbs rest hrest
      rwa [hcons, List.cons_append] at this
    simp [parseNum, digit_ne_minus hdig, hpn]
    omega

/-! ## Lemmas: string escaping -/

theorem hex_spec : ∀ m, m < 16 → isHex (hexCh m) = true ∧ hexv (hexCh m) = m := by
  decide

theorem parseStrBody_escChar (c : Char) (cs rest body : List Char)
    (h : parseStrBody cs = some (body, rest)) :
    parseStrBody (escChar c ++ cs) = some (c :: body, rest) := by
  by_cases h1 : c = '"'
  · subst h1; simp [escChar, parseStrBody, parseEsc, unesc, h]
  by_cases h2 : c = '\\'
  · subst h2; simp [escChar, parseStrBody, parseEsc, unesc, h]
  by_cases h3 : c = '\x08'
  · subst h3; simp [escChar, parseStrBody, parseEsc, unesc, h]
  by_cases h4 : c = '\x09'
  · subst h4; simp [escChar, parseStrBody, parseEsc, unesc, h]
  by_cases h5 : c = '\x0a'
  · subst h5; simp [escChar, parseStrBody, parseEsc, unesc, h]
  by_cases h6 : c = '\x0c'
  · subst h6; simp [escChar, parseStrBody, parseEsc, unesc, h]
  by_cases h7 : c = '\x0d'
  · subst h7; simp [escChar, parseStrBody, parseEsc, unesc, h]
  by_cases hlt : c.toNat < 32
  · have hhi : c.toNat / 16 < 16 := by omega
    have hlo : c.toNat % 16 < 16 := by omega
    have harg : escChar c ++ cs
        = '\\' :: 'u' :: '0' :: '0' :: hexCh (c.toNat / 16) :: hexCh (c.toNat % 16) :: cs := by
      simp [escChar, h1, h2, h3, h4, h5, h6, h7, hlt]
    rw [harg]
    have hval : hexv '0' * 4096 + hexv '0' * 256
        + hexv (hexCh (c.toNat / 16)) * 16 + hexv (hexCh (c.toNat % 16)) = c.toNat := by
      rw [(hex_spec _ hhi).2, (hex_spec _ hlo).2]
      have h0 : hexv '0' = 0 := by decide
      rw [h0]
      omega
    simp [parseStrBody, parseEsc, parseUEsc, (by decide : isHex '0' = true),
      (hex_spec _ hhi).1, (hex_spec _ hlo).1, h, hval, Char.ofNat_toNat]
  · have harg : escChar c ++ cs = c :: cs := by
      simp [escChar, h1, h2, h3, h4, h5, h6, h7, hlt]
    rw [harg]
    simp [parseStrBody, h1, h2, h]

theorem parseStrBody_escBody (l : List Char) :
    ∀ rest, parseStrBody (escBody l ++ ('"' :: rest)) = some (l, rest) := by
  induction l with
  | nil => intro rest; simp [escBody, parseStrBody]
  | cons c cs ih =>
    intro rest
    rw [escBody, List.append_assoc]
    exact parseStrBody_escChar c _ rest cs (ih rest)

/-! ## Lemmas: shape of rendered values -/

theorem jout_ne_nil (j : Json) : jout j ≠ [] := by
  cases j with
  | null => simp [jout]
  | bool b => cases b <;> simp [jout]
  | num n =>
    rw [jout, intOut]
    by_cases h : n < 0
    · simp [h]
    · simp [h, natOut_ne_nil]
  | str s => simp [jout]
  | arr xs => cases xs <;> simp [jout]
  | obj ms =>
    match ms with
    | [] => simp [jout]
    | (k, v) :: ms => simp [jout, objOut]

theorem arrOut_ne_nil (x : Json) (xs : List Json) : arrOut x xs ≠ [] := by
  cases xs <;> simp [arrOut, jout_ne_nil]

theorem digit_ne_of {c d : Char} (h : c.isDigit = true) (hd : d.isDigit = false) : ¬c = d := by
  rintro rfl
  rw [h] at hd
  exact Bool.noConfusion hd

theorem jout_head (j : Json) : ∃ c t, jout j = c :: t ∧ ¬c = ']' := by
  cases j with
  | null => exact ⟨'n', ['u', 'l', 'l'], by simp [jout], by decide⟩
  | bool b =>
    cases b with
    | true => exact ⟨'t', ['r', 'u', 'e'], by simp [jout], by decide⟩
    | false => exact ⟨'f', ['a', 'l', 's', 'e'], by simp [jout], by decide⟩
  | num n =>
    by_cases h : n < 0
    · exact ⟨'-', natOut n.natAbs, by simp [jout, intOut, h], by decide⟩
    · obtain ⟨c, cs, hcons⟩ : ∃ c cs, natOut n.natAbs = c :: cs := by
        cases hh : natOut n.natAbs with
        | nil => exact absurd hh (natOut_ne_nil _)
        | cons c cs => exact ⟨c, cs, rfl⟩
      have hdig : c.isDigit = true := natOut_digits n.natAbs c (by rw [hcons]; simp)
      exact ⟨c, cs, by simp [jout, intOut, h, hcons], digit_ne_of hdig (by decide)⟩
  | str s => exact ⟨'"', escBody s.data ++ ['"'], by simp [jout], by decide⟩
  | arr xs =>
    cases xs with
    | nil => exact ⟨'[', [']'], by simp [jout], by decide⟩
    | cons x xs => exact ⟨'[', arrOut x xs, by simp [jout], by decide⟩
  | obj ms =>
    match ms with
    | [] => exact ⟨'\x7b', ['\x7d'], by simp [jout], by decide⟩
    | m :: ms => exact ⟨'\x7b', objOut m ms, by simp [jout], by decide⟩

theorem objOut_ne_nil (m : String × Json) (ms : List (String × Json)) : objOut m ms ≠ [] := by
  obtain ⟨k, v⟩ := m
  cases ms <;> simp [objOut]

/-! ## Lemmas: parser branch reduction -/

theorem digit_not_kw {c : Char} (h : c.isDigit = true) :
    ¬c = 'n' ∧ ¬c = 't' ∧ ¬c = 'f' ∧ ¬c = '"' ∧ ¬c = '[' ∧ ¬c = '\x7b' := by
  refine ⟨?_, ?_, ?_, ?_, ?_, ?_⟩ <;> exact digit_ne_of h (by decide)

theorem parseVal_other (f : Nat) (c : Char) (cs : List Char)
    (hno : ¬c = 'n' ∧ ¬c = 't' ∧ ¬c = 'f' ∧ ¬c = '"' ∧ ¬c = '[' ∧ ¬c = '\x7b') :
    parseVal (f + 1) (c :: cs)
      = match parseNum (c :: cs) with
        | some (n, r) => some (.num n, r)
        | none => none := by
  obtain ⟨h1, h2, h3, h4, h5, h6⟩ := hno
  simp [parseVal, h1, h2, h3, h4, h5, h6]

theorem parseVal_arrBranch (f : Nat) (c0 : Char) (t : List Char) (hne : ¬c0 = ']') :
    parseVal (f + 1) ('[' :: (c0 :: t))
      = match parseElems f (c0 :: t) with
        | some (vs, r) => some (.arr vs, r)
        | none => none := by
  simp [parseVal]
  split
  · rename_i heq
    rw [List.cons.injEq] at heq
    exact absurd heq.1 hne
  · rfl

theorem parseVal_objBranch (f : Nat) (c0 : Char) (t : List Char) (hne : ¬c0 = '\x7d') :
    parseVal (f + 1) ('\x7b' :: (c0 :: t))
      = match parseMems f (c0 :: t) with
        | some (ms, r) => some (.obj ms, r)
        | none => none := by
  simp [parseVal]
  split
  · rename_i heq
    rw [List.cons.injEq] at heq
    exact absurd heq.1 hne
  · rfl

theorem parseElems_step (f : Nat) (cs : List Char) :
    parseElems (f + 1) cs
      = match parseVal f cs with
        | none => none
        | some (v, r1) =>
          match r1 with
          | ',' :: r2 =>
            match parseElems f r2 with
            | some (vs, r3) => some (v :: vs, r3)
            | none => none
          | ']' :: r2 => some ([v], r2)
          | _ => none := rfl

theorem parseMems_step (f : Nat) (cs : List Char) :
    parseMems (f + 1) cs
      = match cs with
        | '"' :: cs1 =>
          match parseStrBody cs1 with
          | none => none
          | some (key, r1) =>
            match r1 with
            | ':' :: r2 =>
              match parseVal f r2 with
              | none => none
              | some (v, r3) =>
                match r3 with
                | ',' :: r4 =>
                  match parseMems f r4 with
                  | some (ms, r5) => some ((String.mk key, v) :: ms, r5)
                  | none => none
                | '\x7d' :: r4 => some ([(String.mk key, v)], r4)
                | _ => none
            | _ => none
        | _ => none := rfl

/-! ## The codec round trip -/

theorem parse_round (fuel : Nat) :
    (∀ j rest, (jout j).length ≤ fuel → numOk rest →
      parseVal fuel (jout j ++ rest) = some (j, rest))
  ∧ (∀ x xs rest, (arrOut x xs).length ≤ fuel →
      parseElems fuel (arrOut x xs ++ rest) = some (x :: xs, rest))
  ∧ (∀ m ms rest, (objOut m ms).length ≤ fuel →
      parseMems fuel (objOut m ms ++ rest) = some (m :: ms, rest)) := by
  induction fuel with
  | zero =>
    refine ⟨?_, ?_, ?_⟩
    · intro j rest hlen _
      cases h : jout j with
      | nil => exact absurd h (jout_ne_nil j)
      | cons c t => rw [h] at hlen; simp at hlen
    · intro x xs rest hlen
      cases h : arrOut x xs with
      | nil => exact absurd h (arrOut_ne_nil x xs)
      | cons c t => rw [h] at hlen; simp at hlen
    · intro m ms rest hlen
      cases h : objOut m ms with
      | nil => exact absurd h (objOut_ne_nil m ms)
      | cons c t => rw [h] at hlen; simp at hlen
  | succ f ih =>
    obtain ⟨ihv, ihe, ihm⟩ := ih
    refine ⟨?_, ?_, ?_⟩
    · intro j rest hlen hrest
      cases j with
      | null => simp [jout, parseVal]
      | bool b => cases b <;> simp [jout, parseVal]
      | num n =>
        rw [show jout (.num n) = intOut n from by simp [jout]] at hlen ⊢
        by_cases hneg : n < 0
        · have harg : intOut n ++ rest = '-' :: (natOut n.natAbs ++ rest) := by
            simp [intOut, hneg]
          rw [harg, parseVal_other f '-' _ (by decide), ← harg,
            parseNum_intOut n rest hrest]
        · obtain ⟨c, cs, hcons⟩ : ∃ c cs, natOut n.natAbs = c :: cs := by
            cases hh : natOut n.natAbs with
            | nil => exact absurd hh (natOut_ne_nil _)
            | cons c cs => exact ⟨c, cs, rfl⟩
          have hdig : c.isDigit = true := natOut_digits n.natAbs c (by rw [hcons]; simp)
          have harg : intOut n ++ rest = c :: (cs ++ rest) := by
            simp [intOut, hneg, hcons]
          rw [harg, parseVal_other f c _ (digit_not_kw hdig), ← harg,
            parseNum_intOut n rest hrest]
      | str s =>
        rw [show jout (.str s) = '"' :: (escBody s.data ++ ['"']) from by simp [jout]]
        have harg : ('"' :: (escBody s.data ++ ['"'])) ++ rest
            = '"' :: (escBody s.data ++ ('"' :: rest)) := by simp
        rw [harg]
        simp [parseVal, parseStrBody_escBody]
      | arr xs =>
        cases xs with
        | nil => simp [jout, parseVal]
        | cons x xs =>
          rw [show jout (.arr (x :: xs)) = '[' :: arrOut x xs from by simp [jout]] at hlen ⊢
          have hlen' : (arrOut x xs).length ≤ f := by
            rw [List.length_cons] at hlen; omega
          obtain ⟨c0, t, hxt, hne⟩ := jout_head x
          obtain ⟨w, hw⟩ : ∃ w, arrOut x xs ++ rest = c0 :: w := by
            cases xs with
            | nil => exact ⟨t ++ (']' :: rest), by simp [arrOut, hxt]⟩
            | cons y ys => exact ⟨t ++ (',' :: arrOut y ys) ++ rest, by simp [arrOut, hxt]⟩
          rw [List.cons_append, hw, parseVal_arrBranch f c0 w hne, ← hw,
            ihe x xs rest hlen']
      | obj ms =>
        match ms with
        | [] => simp [jout, parseVal]
        | (k, v) :: ms' =>
          rw [show jout (.obj ((k, v) :: ms')) = '\x7b' :: objOut (k, v) ms'
            from by simp [jout]] at hlen ⊢
          have hlen' : (objOut (k, v) ms').length ≤ f := by
            rw [List.length_cons] at hlen; omega
          obtain ⟨w, hw⟩ : ∃ w, objOut (k, v) ms' ++ rest = '"' :: w := by
            cases ms' with
            | nil =>
              exact ⟨escBody k.data ++ ('"' :: (':' :: (jout v ++ ('\x7d' :: rest)))),
                by simp [objOut]⟩
            | cons m'' ms'' =>
              exact ⟨escBody k.data ++ ('"' :: (':' :: (jout v ++ (',' :: (objOut m'' ms'' ++ rest))))),
                by simp [objOut]⟩
          rw [List.cons_append, hw, parseVal_objBranch f '"' w (by decide), ← hw,
            ihm (k, v) ms' rest hlen']
    · intro x xs rest hlen
      rw [parseElems_step]
      cases xs with
      | nil =>
        rw [show arrOut x [] = jout x ++ [']'] from by simp [arrOut]] at hlen ⊢
        have hfa : (jout x).length ≤ f := by
          rw [List.length_append] at hlen; simp at hlen; omega
        have harg : (jout x ++ [']']) ++ rest = jout x ++ (']' :: rest) := by simp
        rw [harg]
        have hx := ihv x (']' :: rest) hfa (by simp [numOk])
        simp [hx]
      | cons y ys =>
        rw [show arrOut x (y :: ys) = jout x ++ (',' :: arrOut y ys)
          from by simp [arrOut]] at hlen ⊢
        have hyne : arrOut y ys ≠ [] := arrOut_ne_nil y ys
        have hly : 1 ≤ (arrOut y ys).length := by
          cases hh : arrOut y ys with
          | nil => exact absurd hh hyne
          | cons a b => simp
        rw [List.length_append, List.length_cons] at hlen
        have hfx : (jout x).length ≤ f := by omega
        have hfy : (arrOut y ys).length ≤ f := by omega
        have harg : (jout x ++ (',' :: arrOut y ys)) ++ rest
            = jout x ++ (',' :: (arrOut y ys ++ rest)) := by simp
        rw [harg]
        have hx := ihv x (',' :: (arrOut y ys ++ rest)) hfx (by simp [numOk])
        have hy := ihe y ys rest hfy
        simp [hx, hy]
    · intro m ms rest hlen
      obtain ⟨k, v⟩ := m
      rw [parseMems_step]
      cases ms with
      | nil =>
        rw [show objOut (k, v) [] = '"' :: (escBody k.data ++ ('"' :: (':' :: (jout v ++ ['\x7d']))))
          from by simp [objOut]] at hlen ⊢
        simp only [List.length_cons, List.length_append] at hlen
        have hfv : (jout v).length ≤ f := by simp at hlen; omega
        have harg : ('"' :: (escBody k.data ++ ('"' :: (':' :: (jout v ++ ['\x7d']))))) ++ rest
            = '"' :: (escBody k.data ++ ('"' :: (':' :: (jout v ++ ('\x7d' :: rest))))) := by
          simp
        rw [harg]
        have hstr := parseStrBody_escBody k.data (':' :: (jout v ++ ('\x7d' :: rest)))
        have hv := ihv v ('\x7d' :: rest) hfv (by simp [numOk])
        simp [hstr, hv]
      | cons m' ms' =>
        rw [show objOut (k, v) (m' :: ms')
            = '"' :: (escBody k.data ++ ('"' :: (':' :: (jout v ++ (',' :: objOut m' ms')))))
          from by simp [objOut]] at hlen ⊢
        have hmne : objOut m' ms' ≠ [] := objOut_ne_nil m' ms'
        have hlm : 1 ≤ (objOut m' ms').length := by
          cases hh : objOut m' ms' with
          | nil => exact absurd hh hmne
          | cons a b => simp
        simp only [List.length_cons, List.length_append] at hlen
        have hfv : (jout v).length ≤ f := by omega
        have hfm : (objOut m' ms').length ≤ f := by omega
        have harg : ('"' :: (escBody k.data ++ ('"' :: (':' :: (jout v ++ (',' :: objOut m' ms')))))) ++ rest
            = '"' :: (escBody k.data ++ ('"' :: (':' :: (jout v ++ (',' :: (objOut m' ms' ++ rest)))))) := by
          simp
        rw [harg]
        have hstr := parseStrBody_escBody k.data (':' :: (jout v ++ (',' :: (objOut m' ms' ++ rest))))
        have hv := ihv v (',' :: (objOut m' ms' ++ rest)) hfv (by simp [numOk])
        have hm := ihm m' ms' rest hfm
        simp [hstr, hv, hm]

theorem jparse_jout (j : Json) : jparse (String.mk (jout j)) = some j := by
  have hv := (parse_round ((jout j).length + 1)).1 j [] (by omega) trivial
  rw [List.append_nil] at hv
  simp [jparse, hv]

theorem deserialize_serialize (e : String) (ps : List Json) :
    deserialize (String.mk (jout (.obj [("event", .str e), ("payload", .arr ps)]))) = .ok ⟨e, ps⟩ := by
  simp [deserialize, jparse_jout, jsFalsy, jsTypeofObject, hasKey, lookupLast]

/-! ## Lemmas: object property lookup -/

theorem lookupLast_go (k : String) (ms : List (String × Json)) :
    ∀ acc, ms.foldl (fun acc m => if m.1 == k then some m.2 else acc) acc
      = match lookupLast ms k with
        | some v => some v
        | none => acc := by
  induction ms with
  | nil => intro acc; simp [lookupLast]
  | cons m ms ih =>
    intro acc
    rw [List.foldl_cons, ih]
    have hm : lookupLast (m :: ms) k
        = match lookupLast ms k with
          | some v => some v
          | none => if m.1 == k then some m.2 else none := by
      rw [lookupLast, List.foldl_cons, ih]
    rw [hm]
    cases lookupLast ms k with
    | some v => rfl
    | none => by_cases h : m.1 == k <;> simp [h]

theorem hasKey_of_lookupLast (k : String) (ms : List (String × Json)) :
    ∀ v, lookupLast ms k = some v → hasKey ms k = true := by
  induction ms with
  | nil => intro v h; simp [lookupLast] at h
  | cons m ms ih =>
    intro v h
    have hm : lookupLast (m :: ms) k
        = match lookupLast ms k with
          | some w => some w
          | none => if m.1 == k then some m.2 else none := by
      rw [lookupLast, List.foldl_cons, lookupLast_go]
    rw [hm] at h
    cases hms : lookupLast ms k with
    | some w =>
      have hrec := ih w hms
      rw [hasKey, List.any_cons]
      rw [hasKey] at hrec
      simp [hrec]
    | none =>
      rw [hms] at h
      by_cases hk : m.1 == k
      · simp [hasKey, hk]
      · simp [hk] at h

/-! ## Lemmas: the SystemEventLock barrier -/

theorem lockReleaseN_released (msg : String) :
    ∀ (k : Nat) (st : LockRun), st.lock.hasReleased = true → lockReleaseN msg k st = st := by
  intro k
  induction k with
  | zero => intro st _; rfl
  | succ k ih =>
    intro st h
    rw [lockReleaseN, lockRelease, if_pos h]
    exact ih st h

theorem lockRelease_lockNew (msg : String) (n : Int) (h : 0 < n) :
    lockRelease msg (lockNew msg n) = lockNew msg (n - 1) := by
  have hnew : lockNew msg n = ⟨⟨n, false⟩, []⟩ := by
    rw [lockNew, checkRelease, if_neg (by simpa using h)]
  rw [hnew, lockRelease]
  simp [lockNew]

theorem lockNew_fired (msg : String) (n : Int) (h : n ≤ 0) :
    lockNew msg n = ⟨⟨n, true⟩, [msg]⟩ := by
  rw [lockNew, checkRelease, if_pos (by simpa using h)]
  rfl

theorem lockReleaseN_sent (msg : String) :
    ∀ (k : Nat) (n : Int),
      (lockReleaseN msg k (lockNew msg n)).sent
        = if n ≤ 0 ∨ n ≤ (k : Int) then [msg] else [] := by
  intro k
  induction k with
  | zero =>
    intro n
    by_cases h : n ≤ 0
    · rw [lockNew_fired msg n h, lockReleaseN]
      simp [h]
    · rw [lockReleaseN, lockNew, checkRelease, if_neg (by simpa using h)]
      simp
      omega
  | succ k ih =>
    intro n
    by_cases h : n ≤ 0
    · rw [lockNew_fired msg n h, lockReleaseN,
        lockRelease, if_pos rfl, lockReleaseN_released msg k _ rfl]
      simp [h]
    · rw [lockReleaseN, lockRelease_lockNew msg n (by omega), ih (n - 1)]
      have hiff : (n - 1 ≤ 0 ∨ n - 1 ≤ (k : Int)) ↔ (n ≤ 0 ∨ n ≤ ((k + 1 : Nat) : Int)) := by
        omega
      by_cases hc : n - 1 ≤ 0 ∨ n - 1 ≤ (k : Int)
      · rw [if_pos hc, if_pos (hiff.mp hc)]
      · rw [if_neg hc, if_neg (fun hx => hc (hiff.mpr hx))]

/-! ## Lemmas: JavaScript split -/

theorem splitOnChar_ne_nil (sep : Char) (cs : List Char) : splitOnChar sep cs ≠ [] := by
  cases cs with
  | nil => simp [splitOnChar]
  | cons c cs =>
    rw [splitOnChar]
    by_cases h : c = sep
    · simp [h]
    · rw [if_neg h]
      cases hs : splitOnChar sep cs <;> simp

theorem splitOnChar_no_sep (sep : Char) (cs : List Char) (h : sep ∉ cs) :
    splitOnChar sep cs = [cs] := by
  induction cs with
  | nil => rfl
  | cons c cs ih =>
    rw [splitOnChar, if_neg (fun hc => h (by rw [hc]; exact List.mem_cons_self _ _)),
      ih (fun hc => h (List.mem_cons_of_mem c hc))]

theorem splitOnChar_break (sep : Char) (pre post : List Char) (h : sep ∉ pre) :
    splitOnChar sep (pre ++ sep :: post) = pre :: splitOnChar sep post := by
  induction pre with
  | nil => simp [splitOnChar]
  | cons c cs ih =>
    rw [List.cons_append, splitOnChar,
      if_neg (fun hc => h (by rw [hc]; exact List.mem_cons_self _ _)),
      ih (fun hc => h (List.mem_cons_of_mem c hc))]

/-! ## Lemmas: the deferred-emission loop -/

theorem runPending_go (w : List String) (q : List (String × List Json)) :
    ∀ acc, q.foldl (fun a p => emitLocal p a) ⟨acc, [], w⟩
      = ⟨acc ++ q, [], w⟩ := by
  induction q with
  | nil => intro acc; simp
  | cons p q ih =>
    intro acc
    rw [List.foldl_cons]
    have : emitLocal p ⟨acc, [], w⟩ = ⟨acc ++ [p], [], w⟩ := rfl
    rw [this, ih]
    simp

theorem runPending_spec (s : LoopState) :
    runPending s = ⟨s.emittedNow ++ s.pending, [], s.warnings⟩ := by
  rw [runPending, runPending_go]

theorem nodeProcessAll_ok (ds : List String) :
    ∀ (s st : LoopState), nodeProcessAll s ds = .ok st →
      st.emittedNow = s.emittedNow ∧ st.warnings = s.warnings
        ∧ st.pending = s.pending ++ ds.filterMap decodedPair := by
  induction ds with
  | nil =>
    intro s st h
    rw [nodeProcessAll] at h
    cases h
    simp
  | cons d ds ih =>
    intro s st h
    rw [nodeProcessAll] at h
    cases hd : nodeProcessData s d with
    | error e => rw [hd] at h; exact absurd h (by simp)
    | ok s1 =>
      rw [hd] at h
      obtain ⟨h1, h2, h3⟩ := ih s1 st h
      rw [nodeProcessData] at hd
      cases hdes : deserialize d with
      | error e => rw [hdes] at hd; exact absurd hd (by simp)
      | ok envelope =>
        rw [hdes] at hd
        cases hd
        refine ⟨h1, h2, ?_⟩
        rw [h3]
        simp [setImmediateTask, decodedPair, hdes]

/-! ## Lemmas: host readiness gating -/

theorem hostStep_ready_mono (s : HostState) (e : HostEvent)
    (h : s.nodeIsReadyForAppEvents = true) :
    (hostStep s e).nodeIsReadyForAppEvents = true := by
  cases e with
  | recvSystem msg =>
    rw [hostStep]
    by_cases hm : msg = "ready-for-app-events" <;> simp [hm, h]
  | enterBackground => rw [hostStep]; simp [h]
  | enterForeground => rw [hostStep]; simp [h]

theorem hostFold_ready (events : List HostEvent) :
    ∀ s, ((events.foldl hostStep s).nodeIsReadyForAppEvents = true)
      ↔ (s.nodeIsReadyForAppEvents = true
          ∨ HostEvent.recvSystem "ready-for-app-events" ∈ events) := by
  induction events with
  | nil => intro s; simp
  | cons e events ih =>
    intro s
    rw [List.foldl_cons, ih]
    have hstep : ((hostStep s e).nodeIsReadyForAppEvents = true)
        ↔ (s.nodeIsReadyForAppEvents = true ∨ e = HostEvent.recvSystem "ready-for-app-events") := by
      cases e with
      | recvSystem msg =>
        rw [hostStep]
        by_cases hm : msg = "ready-for-app-events" <;> simp [hm]
      | enterBackground =>
        rw [hostStep]
        by_cases hr : s.nodeIsReadyForAppEvents = true <;> simp [hr]
      | enterForeground =>
        rw [hostStep]
        by_cases hr : s.nodeIsReadyForAppEvents = true <;> simp [hr]
    rw [hstep]
    simp [List.mem_cons]
    tauto

theorem hostFold_sent (events : List HostEvent) :
    ∀ s, s.nodeIsReadyForAppEvents = false → s.sentToNode = [] →
      (events.foldl hostStep s).sentToNode ≠ [] →
      HostEvent.recvSystem "ready-for-app-events" ∈ events := by
  induction events with
  | nil =>
    intro s _ hsent hne
    rw [List.foldl_nil] at hne
    exact absurd hsent hne
  | cons e events ih =>
    intro s hready hsent hne
    rw [List.foldl_cons] at hne
    cases e with
    | recvSystem msg =>
      by_cases hm : msg = "ready-for-app-events"
      · rw [hm]; exact List.mem_cons_self _ _
      · have hstep : hostStep s (.recvSystem msg) = s := by rw [hostStep, if_neg hm]
        rw [hstep] at hne
        exact List.mem_cons_of_mem _ (ih s hready hsent hne)
    | enterBackground =>
      have hstep : hostStep s .enterBackground = s := by
        rw [hostStep]
        simp [hready]
      rw [hstep] at hne
      exact List.mem_cons_of_mem _ (ih s hready hsent hne)
    | enterForeground =>
      have hstep : hostStep s .enterForeground = s := by
        rw [hostStep]
        simp [hready]
      rw [hstep] at hne
      exact List.mem_cons_of_mem _ (ih s hready hsent hne)

/-! ## Lemmas: the release message -/

theorem isPrefixOf_self_append (l t : List Char) : l.isPrefixOf (l ++ t) = true := by
  induction l with
  | nil => simp [List.isPrefixOf]
  | cons c cs ih => simp [List.isPrefixOf, ih]

theorem releaseMessageFor_id (id : String) (h : '|' ∉ id.data) :
    releaseMessageFor ("pause|" ++ id) = "release-pause-event|" ++ id := by
  have hdata : ("pause|" ++ id).data = "pause".data ++ ('|' :: id.data) := by
    rw [String.data_append]
    rfl
  have hsplit : splitOnChar '|' ("pause|" ++ id).data = ["pause".data, id.data] := by
    rw [hdata, splitOnChar_break '|' _ _ (by decide), splitOnChar_no_sep '|' _ h]
  rw [releaseMessageFor, jsSplit, hsplit]
  rfl

theorem releaseMessageFor_twoBars (a b : String) (ha : '|' ∉ a.data) :
    releaseMessageFor ("pause|" ++ a ++ "|" ++ b) = "release-pause-event|" ++ a := by
  have hdata : ("pause|" ++ a ++ "|" ++ b).data
      = "pause".data ++ ('|' :: (a.data ++ ('|' :: b.data))) := by
    simp [String.data_append]
  have hsplit : splitOnChar '|' ("pause|" ++ a ++ "|" ++ b).data
      = "pause".data :: a.data :: splitOnChar '|' b.data := by
    rw [hdata, splitOnChar_break '|' _ _ (by decide), splitOnChar_break '|' _ _ ha]
  rw [releaseMessageFor, jsSplit, hsplit]
  obtain ⟨p, ps, hps⟩ : ∃ p ps, splitOnChar '|' b.data = p :: ps := by
    cases hb : splitOnChar '|' b.data with
    | nil => exact absurd hb (splitOnChar_ne_nil '|' b.data)
    | cons p ps => exact ⟨p, ps, rfl⟩
  rw [hps]
  simp [List.getD]

/-! ## The claims -/

/-- C1: codec round trip.  For every valid event (a non-empty string) and
every payload (a finite sequence of JSON-representable values, arity at
least 0), deserializing the serialized message succeeds and returns exactly
the envelope (event, payload), with the payload values and their order
preserved. -/
theorem c1_codec_roundtrip (e : String) (ps : List Json) (h : ¬e = "") :
    (serialize e ps).bind deserialize = Except.ok ⟨e, ps⟩ := by
  rw [serialize, if_neg h]
  exact deserialize_serialize e ps

/-- C1 witness: the round trip evaluated at event "foo" with payload
("a", "b"). -/
theorem c1_codec_roundtrip_witness :
    ¬("foo" : String) = ""
  ∧ (serialize "foo" [.str "a", .str "b"]).bind deserialize
      = Except.ok ⟨"foo", [.str "a", .str "b"]⟩ :=
  ⟨by decide, c1_codec_roundtrip "foo" [.str "a", .str "b"] (by decide)⟩

set_option maxRecDepth 8000 in
/-- C2: barrier exactly-once firing.  For every starting lock count, the
release callback fires exactly once, exactly when the remaining count first
reaches zero or below (the general formula, first conjunct, with at most one
firing ever, second conjunct); with three locks the callback has not fired
after two releases, fires on the third, and a fourth release leaves the
whole state unchanged; with zero locks it fires synchronously at
construction. -/
theorem c2_lock_exactly_once :
    (∀ (msg : String) (n : Int) (k : Nat),
      (lockReleaseN msg k (lockNew msg n)).sent
        = if n ≤ 0 ∨ n ≤ (k : Int) then [msg] else [])
  ∧ (∀ (msg : String) (n : Int) (k : Nat),
      (lockReleaseN msg k (lockNew msg n)).sent.length ≤ 1)
  ∧ (∀ msg : String, (lockReleaseN msg 2 (lockNew msg 3)).sent = [])
  ∧ (∀ msg : String, (lockReleaseN msg 3 (lockNew msg 3)).sent = [msg])
  ∧ (∀ msg : String, lockReleaseN msg 4 (lockNew msg 3) = lockReleaseN msg 3 (lockNew msg 3))
  ∧ (∀ msg : String, (lockNew msg 0).sent = [msg]) := by
  refine ⟨fun msg n k => lockReleaseN_sent msg k n, ?_, ?_, ?_, ?_, ?_⟩
  · intro msg n k
    rw [lockReleaseN_sent msg k n]
    by_cases hc : n ≤ 0 ∨ n ≤ (k : Int) <;> simp [hc]
  · intro msg; rfl
  · intro msg; rfl
  · intro msg; rfl
  · intro msg; rfl

set_option maxRecDepth 100000 in
/-- C3 counterexample: the capacity check and the counter increment in
get_jni_env are separate atomic operations, so under an interleaving in
which all 40 threads pass the check before any of them increments, all 40
attach: the reachable state has count = 40 > 32, 40 successes and no
refusals, contradicting the claimed invariant count ≤ limit and the claimed
exactly-32-successes outcome. -/
theorem c3_pool_counterexample :
    (poolRun 32 (List.range 40 ++ List.range 40 ++ List.range 40) (poolInit 40)).count = 40
  ∧ ¬(poolRun 32 (List.range 40 ++ List.range 40 ++ List.range 40) (poolInit 40)).count ≤ 32
  ∧ phaseCount (poolRun 32 (List.range 40 ++ List.range 40 ++ List.range 40) (poolInit 40))
      ThreadPhase.finished = 40
  ∧ phaseCount (poolRun 32 (List.range 40 ++ List.range 40 ++ List.range 40) (poolInit 40))
      ThreadPhase.refused = 0 := by
  refine ⟨?_, ?_, ?_, ?_⟩ <;> decide

set_option maxRecDepth 100000 in
/-- C3 amended: when each get_jni_env call runs to completion before the
next begins (serialized acquisitions), the pool with limit 32 keeps
0 ≤ count ≤ limit and peak ≥ count in every reachable state, a call at
count = limit fails with no side effects, and 40 such calls from distinct
fresh threads yield exactly 32 successes and 8 refusals with count and peak
both 32.  Under concurrent interleavings of the check and the increment the
count can transiently exceed the limit (see the counterexample). -/
theorem c3_pool_sequential :
    (∀ (limit c p : Nat), c ≤ limit → c ≤ p →
        (acquireSeq limit (c, p)).2.1 ≤ limit
      ∧ (acquireSeq limit (c, p)).2.1 ≤ (acquireSeq limit (c, p)).2.2)
  ∧ (∀ (limit c p : Nat), c = limit → acquireSeq limit (c, p) = (false, (c, p)))
  ∧ acquireSeqRun 32 40 = (32, 8, (32, 32)) := by
  refine ⟨?_, ?_, by decide⟩
  · intro limit c p hcl hcp
    rw [acquireSeq]
    by_cases h : limit ≤ c <;> simp [h] <;> omega
  · intro limit c p h
    rw [acquireSeq, if_pos (by omega)]

/-- C3 witness: the serialized facts evaluated at concrete states: a fresh
pool accepts an acquisition keeping the invariants, and a full pool refuses
with no side effects. -/
theorem c3_pool_sequential_witness :
    ((acquireSeq 32 (0, 0)).2.1 ≤ 32
      ∧ (acquireSeq 32 (0, 0)).2.1 ≤ (acquireSeq 32 (0, 0)).2.2)
  ∧ acquireSeq 32 (32, 32) = (false, (32, 32)) :=
  ⟨c3_pool_sequential.1 32 0 0 (by decide) (by decide),
   c3_pool_sequential.2.1 32 32 32 rfl⟩

/-- C4 counterexample: for an incoming text "pause|a|b" (an eventId of
"a|b" under the claim's reading), the code splits on every bar and sends
back only the segment between the first and second bars:
"release-pause-event|a", not "release-pause-event|a|b" as the claim
requires. -/
theorem c4_pause_counterexample :
    releaseMessageFor "pause|a|b" = "release-pause-event|a"
  ∧ ¬releaseMessageFor "pause|a|b" = "release-pause-event|" ++ "a|b" := by
  exact ⟨rfl, by decide⟩

/-- C4 amended: on receipt of a pause text the embedded side constructs a
barrier with one lock per current pause listener over the computed release
message, emits the event "pause" locally, and sends nothing yet (for a
positive listener count); after the snapshotted number of release calls the
release message is sent (exactly once); with zero listeners it is sent
synchronously at construction.  The release message is exactly
"release-pause-event" for the text "pause", and
"release-pause-event|<eventId>" with the same eventId whenever the eventId
contains no bar; an eventId containing a bar is truncated at it (see the
counterexample). -/
theorem c4_pause_barrier :
    (∀ (t : String) (n : Nat), List.isPrefixOf "pause".data t.data = true →
      systemChannelEmit t n
        = ⟨some (lockNew (releaseMessageFor t) (Int.ofNat n)),
           (lockNew (releaseMessageFor t) (Int.ofNat n)).sent, ["pause"]⟩)
  ∧ (∀ (t : String) (n : Nat), 0 < n →
      lockNew (releaseMessageFor t) (Int.ofNat n) = ⟨⟨Int.ofNat n, false⟩, []⟩)
  ∧ (∀ (t : String) (n : Nat),
      (lockReleaseN (releaseMessageFor t) n
          (lockNew (releaseMessageFor t) (Int.ofNat n))).sent
        = [releaseMessageFor t])
  ∧ (∀ t : String, (lockNew (releaseMessageFor t) (Int.ofNat 0)).sent = [releaseMessageFor t])
  ∧ releaseMessageFor "pause" = "release-pause-event"
  ∧ (∀ id : String, '|' ∉ id.data →
      releaseMessageFor ("pause|" ++ id) = "release-pause-event|" ++ id) := by
  refine ⟨?_, ?_, ?_, ?_, rfl, releaseMessageFor_id⟩
  · intro t n h
    rw [systemChannelEmit, if_pos h]
  · intro t n h
    rw [lockNew, checkRelease, if_neg (by simp; omega)]
  · intro t n
    rw [lockReleaseN_sent, if_pos (Or.inr (by simp))]
  · intro t
    rw [lockNew_fired _ _ (by simp)]

/-- C4 witness: the amended facts evaluated at the plain text "pause" with
two listeners, and at a bar-free eventId. -/
theorem c4_pause_barrier_witness :
    systemChannelEmit "pause" 2
      = ⟨some (lockNew (releaseMessageFor "pause") (Int.ofNat 2)),
         (lockNew (releaseMessageFor "pause") (Int.ofNat 2)).sent, ["pause"]⟩
  ∧ releaseMessageFor ("pause|" ++ "abc") = "release-pause-event|" ++ "abc" :=
  ⟨c4_pause_barrier.1 "pause" 2 (by decide),
   c4_pause_barrier.2.2.2.2.2 "abc" (by decide)⟩

/-- C5: EventChannel native-subscription lifecycle.  Under the channel
invariant (a subscription is held exactly while at least one listener is
registered), addListener performs a native activation exactly when the
count goes 0 to 1 and never deactivates, a subscription's remove performs a
native deactivation exactly when the count goes 1 to 0 and never activates,
both preserve the invariant, and the concrete trace of three adds followed
by three removes ends with exactly one activation and one deactivation. -/
theorem c5_subscription_lifecycle :
    (∀ s : EventChannelState, chanInv s → 0 ≤ s.listenerCount →
        (addListener s).activations = s.activations + (if s.listenerCount = 0 then 1 else 0)
      ∧ (addListener s).deactivations = s.deactivations
      ∧ chanInv (addListener s))
  ∧ (∀ s : EventChannelState, chanInv s → 1 ≤ s.listenerCount →
        (removeListener s).deactivations
          = s.deactivations + (if s.listenerCount = 1 then 1 else 0)
      ∧ (removeListener s).activations = s.activations
      ∧ chanInv (removeListener s))
  ∧ removeListener (removeListener (removeListener
      (addListener (addListener (addListener freshChannel)))))
      = ⟨0, false, 1, 1⟩ := by
  refine ⟨?_, ?_, rfl⟩
  · intro s hinv hge
    rw [chanInv] at hinv
    rw [addListener]
    by_cases h0 : s.listenerCount = 0
    · have hsub : s.subscriptionActive = false := by rw [hinv, h0]; simp
      simp [h0, startNativeSubscription, hsub, chanInv]
    · have h1 : ¬s.listenerCount + 1 = 1 := by omega
      have hsub : s.subscriptionActive = true := by rw [hinv]; simp; omega
      simp [h1, h0, chanInv, hsub]
      omega
  · intro s hinv hge
    rw [chanInv] at hinv
    rw [removeListener]
    have hsub : s.subscriptionActive = true := by rw [hinv]; simp; omega
    by_cases h1 : s.listenerCount = 1
    · simp [h1, stopNativeSubscription, hsub, chanInv]
    · have h0 : ¬s.listenerCount - 1 = 0 := by omega
      simp [h0, h1, chanInv, hsub]
      omega

/-- C5 witness: the add fact evaluated at a fresh channel (count 0, no
subscription): the first add activates once and preserves the invariant. -/
theorem c5_subscription_lifecycle_witness :
    (addListener freshChannel).activations
        = freshChannel.activations + (if freshChannel.listenerCount = 0 then 1 else 0)
  ∧ (addListener freshChannel).deactivations = freshChannel.deactivations
  ∧ chanInv (addListener freshChannel) :=
  c5_subscription_lifecycle.1 freshChannel rfl (by decide)

/-- C6 counterexample: on the embedded (Node) receiving side,
EventChannel.processData calls deserialize with no try/catch (nor does its
only caller, bridgeListener), so the decode failure for the non-JSON text
"not json" propagates out of the dispatch path (an Except.error in the
model) instead of being caught, logged and dropped — refuting the claim
that decode-failure isolation holds on both receiving sides. -/
theorem c6_decode_isolation_counterexample :
    nodeProcessData emptyLoop "not json" = Except.error CodecFailure.parseFailure := rfl

/-- C6 amended: codec errors are raised synchronously to the caller on
serialize (hence on post and send) on both sides; on the host
(React-Native) receiving side a deserialize failure during dispatch is
caught, a warning is logged, and the message is dropped (no emission, no
propagation), while a successful decode is emitted; on the embedded (Node)
receiving side a deserialize failure propagates out of processData
uncaught. -/
theorem c6_decode_isolation :
    (∀ ps : List Json, serialize "" ps = Except.error CodecFailure.emptyEventName)
  ∧ (∀ (s : LoopState) (data : String) (e : CodecFailure), deserialize data = .error e →
      tsProcessData s data
        = ⟨s.emittedNow, s.pending, s.warnings ++ ["Failed to process Node.js message"]⟩)
  ∧ (∀ (s : LoopState) (data : String) (env : DeserializedMessage), deserialize data = .ok env →
      tsProcessData s data = emitLocal (env.event, env.payload) s)
  ∧ (∀ (s : LoopState) (data : String) (e : CodecFailure), deserialize data = .error e →
      nodeProcessData s data = Except.error e) := by
  refine ⟨fun ps => rfl, ?_, ?_, ?_⟩
  · intro s data e h
    rw [tsProcessData, h]
  · intro s data env h
    rw [tsProcessData, h]
  · intro s data e h
    rw [nodeProcessData, h]

/-- C6 witness: the amended facts evaluated at the text "null", which
parses as JSON but fails envelope validation: dropped with a warning on the
host side, propagated on the embedded side; and serialize with an empty
event name fails synchronously. -/
theorem c6_decode_isolation_witness :
    serialize "" [] = Except.error CodecFailure.emptyEventName
  ∧ tsProcessData emptyLoop "null"
      = ⟨emptyLoop.emittedNow, emptyLoop.pending,
         emptyLoop.warnings ++ ["Failed to process Node.js message"]⟩
  ∧ nodeProcessData emptyLoop "null" = Except.error CodecFailure.notAnObject :=
  ⟨c6_decode_isolation.1 [],
   c6_decode_isolation.2.1 emptyLoop "null" CodecFailure.notAnObject rfl,
   c6_decode_isolation.2.2.2 emptyLoop "null" CodecFailure.notAnObject rfl⟩

/-- C7 counterexample: on the host (React-Native) receiving side,
EventChannel processData emits the decoded envelope to local listeners
synchronously within the same execution (expo's EventEmitter.emit), with no
deferral step: processing a valid message makes the emission appear in the
current turn, refuting the claim that emission is deferred to the next
scheduling turn on both receiving sides. -/
theorem c7_deferred_emission_counterexample :
    (tsProcessData emptyLoop
        (String.mk (jout (.obj [("event", .str "hello"), ("payload", .arr [])])))).emittedNow
      = [("hello", [])]
  ∧ ¬(tsProcessData emptyLoop
        (String.mk (jout (.obj [("event", .str "hello"), ("payload", .arr [])])))).emittedNow
      = [] := by
  have hdes : deserialize
      (String.mk (jout (.obj [("event", .str "hello"), ("payload", .arr [])])))
      = Except.ok ⟨"hello", []⟩ := deserialize_serialize "hello" []
  have hred : (tsProcessData emptyLoop
      (String.mk (jout (.obj [("event", .str "hello"), ("payload", .arr [])])))).emittedNow
      = [("hello", [])] := by
    rw [tsProcessData, hdes]
    rfl
  refine ⟨hred, ?_⟩
  intro h
  rw [hred] at h
  simp at h

/-- C7 amended: on the embedded (Node) receiving side every decoded
envelope is queued via setImmediate, none is emitted during the current
synchronous execution, and running the queued turn delivers the decoded
envelopes of a received message sequence in exactly the order received; on
the host (React-Native) side the decoded envelope is emitted synchronously
within the receiving callback (asynchrony towards host-side senders comes
from the native delivery path, not this layer). -/
theorem c7_deferred_emission :
    (∀ (s : LoopState) (data : String) (env : DeserializedMessage), deserialize data = .ok env →
      nodeProcessData s data
        = Except.ok ⟨s.emittedNow, s.pending ++ [(env.event, env.payload)], s.warnings⟩)
  ∧ (∀ (msgs : List String) (st : LoopState), nodeProcessAll emptyLoop msgs = .ok st →
      st.emittedNow = [] ∧ (runPending st).emittedNow = msgs.filterMap decodedPair)
  ∧ (∀ (s : LoopState) (data : String) (env : DeserializedMessage), deserialize data = .ok env →
      tsProcessData s data
        = ⟨s.emittedNow ++ [(env.event, env.payload)], s.pending, s.warnings⟩) := by
  refine ⟨?_, ?_, ?_⟩
  · intro s data env h
    rw [nodeProcessData, h]
    rfl
  · intro msgs st h
    obtain ⟨h1, h2, h3⟩ := nodeProcessAll_ok msgs emptyLoop st h
    refine ⟨by simp [h1, emptyLoop], ?_⟩
    rw [runPending_spec, h1, h3]
    simp [emptyLoop]
  · intro s data env h
    rw [tsProcessData, h]
    rfl

/-- C7 witness: the amended facts evaluated on one concrete wire message
(event "ping", empty payload): queued but not emitted on the embedded side,
delivered after the turn, and emitted synchronously on the host side. -/
theorem c7_deferred_emission_witness :
    nodeProcessData emptyLoop
        (String.mk (jout (.obj [("event", .str "ping"), ("payload", .arr [])])))
      = Except.ok ⟨emptyLoop.emittedNow, emptyLoop.pending ++ [("ping", [])], emptyLoop.warnings⟩
  ∧ tsProcessData emptyLoop
        (String.mk (jout (.obj [("event", .str "ping"), ("payload", .arr [])])))
      = ⟨emptyLoop.emittedNow ++ [("ping", [])], emptyLoop.pending, emptyLoop.warnings⟩ :=
  ⟨c7_deferred_emission.1 emptyLoop _ ⟨"ping", []⟩ (deserialize_serialize "ping" []),
   c7_deferred_emission.2.2 emptyLoop _ ⟨"ping", []⟩ (deserialize_serialize "ping" [])⟩

/-- C8: readiness gating.  The host readiness flag is one-way (once set it
is never reset by any event), it is set exactly by receipt of the
"ready-for-app-events" system message, every trace in which the host has
sent anything on the system channel contains that receipt (so no pause or
resume is sent, and none reaches embedded listeners, before the readiness
signal is observed), and in particular a background transition before
readiness sends nothing. -/
theorem c8_readiness_gating :
    (∀ (s : HostState) (e : HostEvent), s.nodeIsReadyForAppEvents = true →
      (hostStep s e).nodeIsReadyForAppEvents = true)
  ∧ (∀ events : List HostEvent,
      (hostRun events).nodeIsReadyForAppEvents = true
        ↔ HostEvent.recvSystem "ready-for-app-events" ∈ events)
  ∧ (∀ events : List HostEvent, (hostRun events).sentToNode ≠ [] →
      HostEvent.recvSystem "ready-for-app-events" ∈ events)
  ∧ (hostRun [HostEvent.enterBackground]).sentToNode = [] := by
  refine ⟨hostStep_ready_mono, ?_, ?_, rfl⟩
  · intro events
    rw [hostRun, hostFold_ready]
    simp
  · intro events h
    exact hostFold_sent events ⟨false, []⟩ rfl rfl h

/-- C8 witness: the gating facts evaluated on the trace that receives the
readiness signal and then backgrounds: something is sent, and indeed the
signal receipt is in the trace; monotonicity evaluated at a ready state. -/
theorem c8_readiness_gating_witness :
    HostEvent.recvSystem "ready-for-app-events"
      ∈ [HostEvent.recvSystem "ready-for-app-events", HostEvent.enterBackground]
  ∧ (hostStep ⟨true, []⟩ HostEvent.enterBackground).nodeIsReadyForAppEvents = true :=
  ⟨c8_readiness_gating.2.2.1
      [HostEvent.recvSystem "ready-for-app-events", HostEvent.enterBackground] (by decide),
   c8_readiness_gating.1 ⟨true, []⟩ HostEvent.enterBackground rfl⟩

/-- C9 counterexample: for the system text "pause|x|y" the eventId the code
carries into the release message is the segment between the first and
second bars ("x"), not the whole substring after the first bar ("x|y") as
the claim states: the code sends "release-pause-event|x". -/
theorem c9_pause_matching_counterexample :
    releaseMessageFor "pause|x|y" = "release-pause-event|x"
  ∧ ¬releaseMessageFor "pause|x|y" = "release-pause-event|" ++ "x|y" := by
  exact ⟨rfl, by decide⟩

/-- C9 amended: the pause-barrier path is taken exactly when the incoming
text starts with "pause" (so a text like "pauseX", or "pause" followed by
any suffix, also takes it), the locally emitted event name is then always
exactly "pause" (other texts are emitted under their own name with no
barrier), and the eventId carried into the release message is the segment
of the text between the first and second bars (the second component of
splitting on the bar), not everything after the first bar. -/
theorem c9_pause_matching :
    (∀ (t : String) (n : Nat),
      (systemChannelEmit t n).lock.isSome = List.isPrefixOf "pause".data t.data)
  ∧ (∀ (t : String) (n : Nat), List.isPrefixOf "pause".data t.data = true →
      (systemChannelEmit t n).localEvents = ["pause"])
  ∧ (∀ (t : String) (n : Nat), List.isPrefixOf "pause".data t.data = false →
      (systemChannelEmit t n).localEvents = [t] ∧ (systemChannelEmit t n).lock = none)
  ∧ (∀ suffix : String, List.isPrefixOf "pause".data ("pause" ++ suffix).data = true)
  ∧ (∀ a b : String, '|' ∉ a.data →
      releaseMessageFor ("pause|" ++ a ++ "|" ++ b) = "release-pause-event|" ++ a) := by
  refine ⟨?_, ?_, ?_, ?_, releaseMessageFor_twoBars⟩
  · intro t n
    rw [systemChannelEmit]
    by_cases h : List.isPrefixOf "pause".data t.data = true
    · rw [if_pos h, h]
      rfl
    · rw [if_neg h]
      rw [Bool.not_eq_true] at h
      rw [h]
      rfl
  · intro t n h
    rw [systemChannelEmit, if_pos h]
  · intro t n h
    rw [systemChannelEmit, if_neg (by rw [h]; exact Bool.false_ne_true)]
    exact ⟨rfl, rfl⟩
  · intro suffix
    rw [String.data_append]
    exact isPrefixOf_self_append _ _

/-- C9 witness: the amended facts evaluated at the text "pauseX" (prefix
match, local event name "pause") and at the two-bar text built from "x" and
"y". -/
theorem c9_pause_matching_witness :
    (systemChannelEmit "pauseX" 1).localEvents = ["pause"]
  ∧ releaseMessageFor ("pause|" ++ "x" ++ "|" ++ "y") = "release-pause-event|" ++ "x" :=
  ⟨c9_pause_matching.2.1 "pauseX" 1 (by decide),
   c9_pause_matching.2.2.2.2 "x" "y" (by decide)⟩

/-- C10: decode leniency.  deserialize accepts any JSON object that has an
"event" member whose value is a string and a "payload" member whose value
is an array, regardless of any additional members, and returns only the
(event, payload) envelope, silently discarding the extra members. -/
theorem c10_decode_leniency (members : List (String × Json)) (e : String) (ps : List Json)
    (hev : lookupLast members "event" = some (.str e))
    (hpl : lookupLast members "payload" = some (.arr ps)) :
    deserialize (String.mk (jout (.obj members))) = Except.ok ⟨e, ps⟩ := by
  have hke : hasKey members "event" = true := hasKey_of_lookupLast _ _ _ hev
  have hkp : hasKey members "payload" = true := hasKey_of_lookupLast _ _ _ hpl
  simp [deserialize, jparse_jout, jsFalsy, jsTypeofObject, hke, hkp, hev, hpl]

/-- C10 witness: a three-member object with an extra member "extra" ahead
of the envelope fields decodes to exactly the (event, payload) envelope. -/
theorem c10_decode_leniency_witness :
    deserialize (String.mk (jout (.obj
        [("extra", .num 7), ("event", .str "x"), ("payload", .arr [])])))
      = Except.ok ⟨"x", []⟩ :=
  c10_decode_leniency [("extra", .num 7), ("event", .str "x"), ("payload", .arr [])]
    "x" [] rfl rfl
